import Mathlib

/-!
Verification of the slash-product graph generator
(`ST_Graph_Generator_Notebook.ipynb`).

The notebook's core consists of four functions over numpy adjacency
matrices and networkx graphs:

* `comp_slash_power_verts(initial_vertices, initial_edges, iteration_number)`
  `= int(2 + (initial_vertices - 2) * (initial_edges**iteration_number - 1)/(initial_edges - 1))`
* `comp_slash_verts(G_verts, G_edges, H_verts, H_edges) = G_verts + G_edges*(H_verts - 2)`
* `slash_H_into_G(G, H)`: allocates a zero matrix of size
  `comp_slash_verts(|V_G|, |E_G|, |V_H|, |E_H|)`, and for every edge `(u,v)`
  of `G` (normalized so that `u < v`) writes the adjacency matrix of `H`
  into the submatrix indexed by the block `[u, fresh ids, v]`, where the
  fresh identifiers are taken from a running cursor starting at `|V_G|`.
* `slash_power(G, n)`: iterates `G_i = slash_H_into_G(G_i, G)` for
  `i in range(1, n)`.

Embedding notes (all choices traced to the source):

* A graph at the core's boundary is an adjacency matrix; we model it as a
  size together with an entry function.  Entries are naturals (the valid
  domain of the notebook is 0/1 matrices; the construction only copies
  entries of `H`, so no float arithmetic occurs on them).
* `list(G.edges)` on a networkx graph built by `nx.from_numpy_array`
  enumerates, for each node `u` in increasing order, the neighbours
  `v > u` in increasing order; i.e. the normalized edges in lexicographic
  order.  `Graph.edges` below reproduces exactly that order.
* Python `range(start, start + H_verts)` is empty when `H_verts` is
  negative (`|V_H| < 2`); natural subtraction `|V_H| - 2` models this.
* The numpy submatrix assignment `A[np.ix_(b, b)] = H_adj` raises
  `IndexError` when some index of `b` is out of range, copies
  elementwise when `H` has shape `(len b, len b)`, broadcasts the single
  entry when `H` has shape `(1, 1)`, and raises `ValueError` otherwise;
  `np.zeros` raises for a negative size.  Fallible steps are modelled
  with `Option`, `none` standing for a raised exception.
* Python `/` on integers is exact real division followed here by `int()`
  truncation toward zero; this is modelled exactly over `ℚ` with
  truncated division `Int.tdiv` of numerator by denominator.
  `initial_edges == 1` makes the Python call raise `ZeroDivisionError`.
-/

/-- An adjacency matrix: a number of vertices and an entry function.
Only entries `adj i j` with `i j < number_of_nodes` are meaningful. -/
structure Graph where
  number_of_nodes : Nat
  adj : Nat → Nat → Nat

/-- The edge list of a graph, in the order `list(G.edges)` produces for a
networkx graph built from a numpy matrix: normalized pairs `(u, v)` with
`u < v` and a nonzero entry, in lexicographic order. -/
def Graph.edges (G : Graph) : List (Nat × Nat) :=
  ((List.range G.number_of_nodes) ×ˢ (List.range G.number_of_nodes)).filter
    fun e => decide (e.1 < e.2 ∧ G.adj e.1 e.2 ≠ 0)

/-- The matrix is symmetric (on the meaningful entries). -/
def Graph.Symm (G : Graph) : Prop :=
  ∀ i, i < G.number_of_nodes → ∀ j, j < G.number_of_nodes → G.adj i j = G.adj j i

/-- The diagonal is zero (no self-loops). -/
def Graph.ZeroDiag (G : Graph) : Prop :=
  ∀ i, i < G.number_of_nodes → G.adj i i = 0

/-- All meaningful entries are 0 or 1. -/
def Graph.ZeroOne (G : Graph) : Prop :=
  ∀ i, i < G.number_of_nodes → ∀ j, j < G.number_of_nodes →
    G.adj i j = 0 ∨ G.adj i j = 1

/-- A valid input graph: symmetric 0/1 adjacency matrix with zero diagonal. -/
def Graph.Valid (G : Graph) : Prop :=
  G.Symm ∧ G.ZeroDiag ∧ G.ZeroOne

instance (G : Graph) : Decidable G.Symm := by
  unfold Graph.Symm; infer_instance

instance (G : Graph) : Decidable G.ZeroDiag := by
  unfold Graph.ZeroDiag; infer_instance

instance (G : Graph) : Decidable G.ZeroOne := by
  unfold Graph.ZeroOne; infer_instance

instance (G : Graph) : Decidable G.Valid := by
  unfold Graph.Valid; infer_instance

/-- Source: `comp_slash_verts(G_verts, G_edges, H_verts, H_edges) =
G_verts + G_edges*(H_verts - 2)` (Python integer arithmetic; the fourth
argument is unused, exactly as in the source). -/
def comp_slash_verts (G_verts G_edges H_verts H_edges : Int) : Int :=
  G_verts + G_edges * (H_verts - 2)

/-- The exact rational value of the Python expression
`2 + (initial_vertices - 2) * (initial_edges**iteration_number - 1)/(initial_edges - 1)`. -/
def slashPowerValue (initial_vertices initial_edges : Int) (iteration_number : Nat) : ℚ :=
  2 + ((initial_vertices : ℚ) - 2) * ((initial_edges : ℚ) ^ iteration_number - 1) /
    ((initial_edges : ℚ) - 1)

/-- Truncation toward zero of a rational, the behaviour of Python `int()`
on the (exact) quotient. -/
def ratTrunc (q : ℚ) : Int :=
  Int.tdiv q.num (q.den : Int)

/-- Source: `comp_slash_power_verts(initial_vertices, initial_edges,
iteration_number)`.  `initial_edges == 1` makes the division raise
`ZeroDivisionError` (modelled as `none`); otherwise Python returns
`int(...)` of the exact quotient. -/
def comp_slash_power_verts (initial_vertices initial_edges : Int)
    (iteration_number : Nat) : Option Int :=
  if initial_edges = 1 then none
  else some (ratTrunc (slashPowerValue initial_vertices initial_edges iteration_number))

/-- The index block `[u, start, start+1, ..., start+fresh-1, v]` built for
one edge of `G` in `slash_H_into_G` (`block_indices` in the source). -/
def block_indices (u v start fresh : Nat) : List Nat :=
  u :: (((List.range fresh).map fun i => start + i) ++ [v])

/-- The numpy submatrix assignment `A[np.ix_(b, b)] = H` restricted to the
case where the block entries are pairwise distinct (always true in the
source: the two endpoints are distinct and smaller than every fresh id):
the entry at `(i, j)` becomes `H` at the positions of `i` and `j` in `b`. -/
def writeBlock (A : Nat → Nat → Nat) (b : List Nat) (Hf : Nat → Nat → Nat) :
    Nat → Nat → Nat :=
  fun i j => if i ∈ b ∧ j ∈ b then Hf (List.indexOf i b) (List.indexOf j b) else A i j

/-- One numpy submatrix assignment `A[np.ix_(b, b)] = H_adj` into a matrix
of size `numV`, with numpy's failure behaviour: `none` when some index of
`b` is out of range (`IndexError`); an elementwise copy when the shape of
`H` matches the block; a broadcast of the single entry when `H` is `1 × 1`;
`none` for any other shape (`ValueError`, the shapes cannot broadcast). -/
def blockWrite (hN : Nat) (Hf : Nat → Nat → Nat) (numV : Nat) (b : List Nat)
    (A : Nat → Nat → Nat) : Option (Nat → Nat → Nat) :=
  if b.all fun x => decide (x < numV) then
    if hN = b.length then some (writeBlock A b Hf)
    else if hN = 1 then some (writeBlock A b fun _ _ => Hf 0 0)
    else none
  else none

/-- The edge loop of `slash_H_into_G`: for each edge, normalize it, build
the block, and perform the numpy submatrix assignment, threading the
running cursor `start_index`.  `none` models a raised numpy exception. -/
def slashLoop (hN : Nat) (Hf : Nat → Nat → Nat) (numV : Nat) :
    List (Nat × Nat) → (Nat → Nat → Nat) → Nat → Option (Nat → Nat → Nat)
  | [], A, _ => some A
  | e :: rest, A, start =>
    (blockWrite hN Hf numV
        (block_indices (if e.2 < e.1 then (e.2, e.1) else e).1
          (if e.2 < e.1 then (e.2, e.1) else e).2 start (hN - 2)) A).bind
      fun A2 => slashLoop hN Hf numV rest A2 (start + (hN - 2))

/-- The same loop with the failure checks stripped: the pure fold the loop
computes whenever it succeeds (and the input edges are normalized). -/
def slashFold (hN : Nat) (Hf : Nat → Nat → Nat) :
    List (Nat × Nat) → (Nat → Nat → Nat) → Nat → (Nat → Nat → Nat)
  | [], A, _ => A
  | e :: rest, A, start =>
    slashFold hN Hf rest (writeBlock A (block_indices e.1 e.2 start (hN - 2)) Hf)
      (start + (hN - 2))

/-- Source: `slash_H_into_G(G, H)`.  Computes the edge list and vertex
count of `G`, sizes the output with `comp_slash_verts`, allocates a zero
matrix and runs the edge loop with the cursor starting at `|V_G|`. -/
def slash_H_into_G (G H : Graph) : Option Graph :=
  let G_edges := G.edges
  let num_verts : Int :=
    comp_slash_verts (G.number_of_nodes : Int) (G_edges.length : Int)
      (H.number_of_nodes : Int) (H.edges.length : Int)
  if num_verts < 0 then none
  else
    (slashLoop H.number_of_nodes H.adj num_verts.toNat G_edges (fun _ _ => 0)
        G.number_of_nodes).map
      fun A => { number_of_nodes := num_verts.toNat, adj := A }

/-- The iteration `G_i = slash_H_into_G(G_i, G)` performed `k` times. -/
def slashIter (G : Graph) : Nat → Option Graph
  | 0 => some G
  | k + 1 => (slashIter G k).bind fun Gi => slash_H_into_G Gi G

/-- Source: `slash_power(G, n)`: `for i in range(1, n): G_i = slash_H_into_G(G_i, G)`,
i.e. `max (n - 1) 0` applications of `slash_H_into_G` with the original
`G` as the slashed-in graph. -/
def slash_power (G : Graph) (n : Int) : Option Graph :=
  slashIter G (n - 1).toNat

/-- The diamond graph `D1` of the notebook's example cell, from the matrix
`[[0,1,1,0],[1,0,0,1],[1,0,0,1],[0,1,1,0]]`. -/
def D1 : Graph where
  number_of_nodes := 4
  adj := fun i j =>
    (([[0,1,1,0],[1,0,0,1],[1,0,0,1],[0,1,1,0]] : List (List Nat)).getD i []).getD j 0

/-- A single-vertex graph (`H` with fewer than 2 vertices). -/
def oneVertexGraph : Graph where
  number_of_nodes := 1
  adj := fun _ _ => 0

/-- Two isolated vertices (a graph with no edges). -/
def twoIsolated : Graph where
  number_of_nodes := 2
  adj := fun _ _ => 0

/-- A single edge on two vertices. -/
def singleEdge : Graph where
  number_of_nodes := 2
  adj := fun i j => if i = j then 0 else if i < 2 ∧ j < 2 then 1 else 0

/-- Three vertices with the single edge `(0, 1)`. -/
def threeVerticesOneEdge : Graph where
  number_of_nodes := 3
  adj := fun i j => if (i = 0 ∧ j = 1) ∨ (i = 1 ∧ j = 0) then 1 else 0

def geomSeries (E : Int) (n : Nat) : Int := ∑ i ∈ Finset.range n, E ^ i

/-- The set of normalized edges of an `n × n` matrix, as a finset; used to
count edges of constructed graphs. -/
def edgeFinset (n : Nat) (A : Nat → Nat → Nat) : Finset (Nat × Nat) :=
  (Finset.range n ×ˢ Finset.range n).filter fun e => e.1 < e.2 ∧ A e.1 e.2 ≠ 0

/-- Normalize an ordered pair so that the smaller component comes first. -/
def sortPair (p : Nat × Nat) : Nat × Nat :=
  if p.1 ≤ p.2 then p else (p.2, p.1)

/-- The `k`-th fresh block of inserted vertex identifiers: the loop cursor
starts at `base = number of vertices of G` and advances by `f = number of
internal vertices of H` per edge, so the `k`-th edge receives the
identifiers `base + k*f, ..., base + k*f + f - 1`. -/
def freshIds (base f k : Nat) : List Nat :=
  (List.range f).map fun i => base + k * f + i

lemma ratTrunc_intCast (z : ℤ) : ratTrunc ((z : ℚ)) = z := by
  rw [ratTrunc]
  simp

lemma slashPowerValue_eq_intCast (V E : ℤ) (n : ℕ) (hE : E ≠ 1) :
    slashPowerValue V E n = (Int.cast (2 + (V - 2) * geomSeries E n) : ℚ) := by
  have h1 : ((E : ℚ) - 1) ≠ 0 := by
    intro h
    apply hE
    have h2 : (E : ℚ) = 1 := by linarith
    exact_mod_cast h2
  have h2 : ((E : ℚ) ^ n - 1) = (((geomSeries E n : ℤ) : ℚ)) * ((E : ℚ) - 1) := by
    rw [geomSeries]
    push_cast
    rw [geom_sum_mul]
  rw [slashPowerValue, h2]
  push_cast
  field_simp
  ring

lemma comp_slash_power_verts_closed (V E : ℤ) (n : ℕ) (hE : E ≠ 1) :
    comp_slash_power_verts V E n = some (2 + (V - 2) * geomSeries E n) := by
  rw [comp_slash_power_verts, if_neg hE, slashPowerValue_eq_intCast V E n hE,
    ratTrunc_intCast]

/-- C4: for every graph `G` and every integer `n ≤ 1`, `slash_power(G, n)`
returns `G` unchanged (the Python loop `for i in range(1, n)` runs zero
times); in particular `slash_power(G, 1)` is identical to `G` as an
adjacency matrix. -/
theorem slash_power_le_one_returns_G (G : Graph) (n : ℤ) (h : n ≤ 1) :
    slash_power G n = some G := by
  have h0 : (n - 1).toNat = 0 := by omega
  rw [slash_power, h0]
  rfl

theorem slash_power_le_one_witness :
    (1 : ℤ) ≤ 1 ∧ slash_power D1 1 = some D1 :=
  ⟨by decide, slash_power_le_one_returns_G D1 1 (by decide)⟩

/-- C5: for every graph `G`, `slash_power(G, 3)` equals
`slash_H_into_G(slash_H_into_G(G, G), G)` exactly: the two computations are
the same `Option Graph` value, so they agree on success, on vertex count
and, under the fixed lexicographic edge-enumeration order of the
implementation, on the identical adjacency matrix. -/
theorem slash_power_three_eq_double_slash (G : Graph) :
    slash_power G 3 = (slash_H_into_G G G).bind fun GG => slash_H_into_G GG G := rfl

/-- C6: for the 4-vertex diamond graph `D1` of the notebook,
`comp_slash_verts(4,4,4,4) = 12`, `comp_slash_power_verts(4,4,2) = 12`, and
`slash_power(D1, 2)` produces a graph with exactly 12 vertices and 16
edges. -/
theorem diamond_example :
    comp_slash_verts 4 4 4 4 = 12 ∧
    comp_slash_power_verts 4 4 2 = some 12 ∧
    (slash_power D1 2).map Graph.number_of_nodes = some 12 ∧
    (slash_power D1 2).map (fun S => S.edges.length) = some 16 := by
  refine ⟨by decide, ?_, by decide, by decide⟩
  rw [comp_slash_power_verts_closed 4 4 2 (by decide)]
  norm_num [geomSeries, Finset.sum_range_succ]

/-- C9: calling `comp_slash_power_verts` with `initial_edges == 1` fails
synchronously (the division `(initial_edges**n - 1)/(initial_edges - 1)`
raises, which the spec's error taxonomy classifies as InvalidArgument)
rather than returning a value. -/
theorem power_formula_edges_one_fails (V : ℤ) (n : ℕ) :
    comp_slash_power_verts V 1 n = none := by
  simp [comp_slash_power_verts]

/-- C7: the claim (non-integral formula values are reported as an error,
not silently truncated) is vacuously satisfied: for every integer input
with `initial_edges ≠ 1` the exact value
`2 + (initial_vertices - 2)*(initial_edges^n - 1)/(initial_edges - 1)` is
an integer (`initial_edges - 1` always divides `initial_edges^n - 1`), so
the premise of the claim never occurs, and `comp_slash_power_verts`
returns exactly that integer, the `int()` truncation being the
identity. -/
theorem power_formula_always_integral (V E : ℤ) (n : ℕ) (hE : E ≠ 1) :
    (slashPowerValue V E n).den = 1 ∧
    comp_slash_power_verts V E n = some (slashPowerValue V E n).num := by
  rw [slashPowerValue_eq_intCast V E n hE]
  refine ⟨Rat.den_intCast _, ?_⟩
  rw [comp_slash_power_verts_closed V E n hE, Rat.num_intCast]

theorem power_formula_always_integral_witness :
    (4 : ℤ) ≠ 1 ∧
    ((slashPowerValue 3 4 2).den = 1 ∧
      comp_slash_power_verts 3 4 2 = some (slashPowerValue 3 4 2).num) :=
  ⟨by decide, power_formula_always_integral 3 4 2 (by decide)⟩

/-- C8, counterexample: the claim says `slash_H_into_G(G, H)` with a
1-vertex `H` fails with InvalidArgument and does not produce a graph; but
for the concrete edgeless graph `G` on two vertices and the 1-vertex `H`
the call raises nothing and returns a graph (with 2 vertices). -/
theorem slash_into_one_vertex_H_counterexample :
    (slash_H_into_G twoIsolated oneVertexGraph).map Graph.number_of_nodes = some 2 := by
  decide

/-- C8, amended: `slash_H_into_G` performs no validation of `|V_H| ≥ 2`
and never raises an InvalidArgument error for a 1-vertex `H`.  Whenever
`G` has no edges the call returns a graph with `|V_G|` vertices (an
all-zero matrix) instead of failing.  When `G` has edges the outcome
depends on the instance, but is still never an InvalidArgument: the
3-vertex graph with single edge `(0, 1)` returns a 2-vertex graph
(`num_verts = 3 + 1·(1 - 2) = 2`, the block `[0, 1]` is in range and the
`1 × 1` matrix of `H` broadcasts into it), while the 2-vertex single-edge
graph fails, and then only with an out-of-range index error from the
numpy submatrix write (`num_verts = 1`, the block `[0, 1]` is out of
range). -/
theorem slash_into_small_H_no_validation (G : Graph) (h : G.edges = []) :
    (slash_H_into_G G oneVertexGraph).map Graph.number_of_nodes = some G.number_of_nodes ∧
    (slash_H_into_G threeVerticesOneEdge oneVertexGraph).map Graph.number_of_nodes =
      some 2 ∧
    slash_H_into_G singleEdge oneVertexGraph = none := by
  refine ⟨?_, by decide, rfl⟩
  simp [slash_H_into_G, h, comp_slash_verts, slashLoop, oneVertexGraph]

theorem slash_into_small_H_no_validation_witness :
    twoIsolated.edges = [] ∧
    ((slash_H_into_G twoIsolated oneVertexGraph).map Graph.number_of_nodes =
        some twoIsolated.number_of_nodes ∧
      (slash_H_into_G threeVerticesOneEdge oneVertexGraph).map Graph.number_of_nodes =
        some 2 ∧
      slash_H_into_G singleEdge oneVertexGraph = none) :=
  ⟨by decide, slash_into_small_H_no_validation twoIsolated (by decide)⟩

lemma Graph.mem_edges {G : Graph} {u v : Nat} :
    (u, v) ∈ G.edges ↔ u < v ∧ v < G.number_of_nodes ∧ G.adj u v ≠ 0 := by
  simp only [Graph.edges, List.mem_filter, List.mem_product, List.mem_range,
    decide_eq_true_eq]
  constructor
  · rintro ⟨⟨h1, h2⟩, h3, h4⟩
    exact ⟨h3, h2, h4⟩
  · rintro ⟨h1, h2, h3⟩
    exact ⟨⟨by omega, h2⟩, h1, h3⟩

lemma Graph.edges_nodup (G : Graph) : G.edges.Nodup :=
  List.Nodup.filter _ (List.Nodup.product (List.nodup_range _) (List.nodup_range _))

lemma Graph.edges_mem_lt {G : Graph} {e : Nat × Nat} (h : e ∈ G.edges) :
    e.1 < e.2 ∧ e.2 < G.number_of_nodes := by
  obtain ⟨u, v⟩ := e
  have h2 := Graph.mem_edges.1 h
  exact ⟨h2.1, h2.2.1⟩

lemma Graph.edges_nil_of_lt_two {G : Graph} (h : G.number_of_nodes < 2) :
    G.edges = [] := by
  rw [Graph.edges, List.filter_eq_nil_iff]
  rintro ⟨u, v⟩ he
  simp only [List.mem_product, List.mem_range] at he
  intro hc
  rw [decide_eq_true_eq] at hc
  omega

lemma block_indices_length (u v s f : Nat) : (block_indices u v s f).length = f + 2 := by
  simp [block_indices]

lemma mem_block_indices {u v s f x : Nat} :
    x ∈ block_indices u v s f ↔ x = u ∨ x = v ∨ (s ≤ x ∧ x < s + f) := by
  simp only [block_indices, List.mem_cons, List.mem_append, List.mem_map,
    List.mem_range, List.not_mem_nil, or_false]
  constructor
  · rintro (h | ⟨i, hi, h⟩ | h)
    · exact Or.inl h
    · have h2 : s + i = x := h
      exact Or.inr (Or.inr ⟨by omega, by omega⟩)
    · exact Or.inr (Or.inl h)
  · rintro (h | h | ⟨h1, h2⟩)
    · exact Or.inl h
    · exact Or.inr (Or.inr h)
    · exact Or.inr (Or.inl ⟨x - s, by omega, by omega⟩)

lemma block_indices_nodup {u v s f : Nat} (huv : u ≠ v) (hu : u < s) (hv : v < s) :
    (block_indices u v s f).Nodup := by
  rw [block_indices, List.nodup_cons, List.nodup_append]
  refine ⟨?_, ?_, List.nodup_singleton v, ?_⟩
  · simp only [List.mem_append, List.mem_map, List.mem_range, List.mem_singleton]
    rintro (⟨i, hi, h⟩ | h)
    · have h2 : s + i = u := h
      omega
    · exact huv h
  · refine List.Nodup.map ?_ (List.nodup_range f)
    intro a b hab
    have h2 : s + a = s + b := hab
    omega
  · intro x hx hx2
    simp only [List.mem_map, List.mem_range] at hx
    simp only [List.mem_singleton] at hx2
    obtain ⟨i, hi, h⟩ := hx
    have h2 : s + i = x := h
    omega

lemma block_indices_all_lt {u v s f n : Nat} (hu : u < n) (hv : v < n)
    (hf : s + f ≤ n) : ∀ x ∈ block_indices u v s f, x < n := by
  intro x hx
  rcases mem_block_indices.1 hx with h | h | h <;> omega

lemma indexOf_block_lt {b : List Nat} {x : Nat} (hx : x ∈ b) :
    List.indexOf x b < b.length :=
  List.indexOf_lt_length.2 hx

lemma writeBlock_symm {A : Nat → Nat → Nat} {b : List Nat} {Hf : Nat → Nat → Nat}
    (hA : ∀ i j, A i j = A j i)
    (hH : ∀ p q, p < b.length → q < b.length → Hf p q = Hf q p) :
    ∀ i j, writeBlock A b Hf i j = writeBlock A b Hf j i := by
  intro i j
  unfold writeBlock
  by_cases hij : i ∈ b ∧ j ∈ b
  · rw [if_pos hij, if_pos ⟨hij.2, hij.1⟩,
      hH _ _ (indexOf_block_lt hij.1) (indexOf_block_lt hij.2)]
  · rw [if_neg hij, if_neg fun h => hij ⟨h.2, h.1⟩, hA]

lemma writeBlock_zero_diag {A : Nat → Nat → Nat} {b : List Nat} {Hf : Nat → Nat → Nat}
    (hA : ∀ i, A i i = 0) (hH : ∀ p, p < b.length → Hf p p = 0) :
    ∀ i, writeBlock A b Hf i i = 0 := by
  intro i
  unfold writeBlock
  by_cases hi : i ∈ b ∧ i ∈ b
  · rw [if_pos hi, hH _ (indexOf_block_lt hi.1)]
  · rw [if_neg hi, hA]

lemma blockWrite_symm {hN : Nat} {Hf : Nat → Nat → Nat} {nv : Nat} {b : List Nat}
    {A A2 : Nat → Nat → Nat}
    (hHs : ∀ p q, p < hN → q < hN → Hf p q = Hf q p)
    (hA : ∀ i j, A i j = A j i)
    (hW : blockWrite hN Hf nv b A = some A2) :
    ∀ i j, A2 i j = A2 j i := by
  rw [blockWrite] at hW
  split at hW
  · split at hW
    · rename_i hlen
      obtain rfl : writeBlock A b Hf = A2 := by injection hW
      exact writeBlock_symm hA fun p q hp hq => hHs p q (hlen ▸ hp) (hlen ▸ hq)
    · split at hW
      · obtain rfl : writeBlock A b (fun _ _ => Hf 0 0) = A2 := by injection hW
        exact writeBlock_symm hA fun p q _ _ => rfl
      · exact absurd hW (by simp)
  · exact absurd hW (by simp)

lemma blockWrite_zero_diag {hN : Nat} {Hf : Nat → Nat → Nat} {nv : Nat} {b : List Nat}
    {A A2 : Nat → Nat → Nat}
    (hHd : ∀ p, p < hN → Hf p p = 0)
    (hA : ∀ i, A i i = 0)
    (hW : blockWrite hN Hf nv b A = some A2) :
    ∀ i, A2 i i = 0 := by
  rw [blockWrite] at hW
  split at hW
  · split at hW
    · rename_i hlen
      obtain rfl : writeBlock A b Hf = A2 := by injection hW
      exact writeBlock_zero_diag hA fun p hp => hHd p (hlen ▸ hp)
    · split at hW
      · rename_i h1
        obtain rfl : writeBlock A b (fun _ _ => Hf 0 0) = A2 := by injection hW
        exact writeBlock_zero_diag hA fun p _ => hHd 0 (by omega)
      · exact absurd hW (by simp)
  · exact absurd hW (by simp)

lemma slashLoop_symm {hN : Nat} {Hf : Nat → Nat → Nat} {nv : Nat}
    (hHs : ∀ p q, p < hN → q < hN → Hf p q = Hf q p) :
    ∀ (es : List (Nat × Nat)) (A : Nat → Nat → Nat) (s : Nat) (R : Nat → Nat → Nat),
      (∀ i j, A i j = A j i) → slashLoop hN Hf nv es A s = some R →
      ∀ i j, R i j = R j i := by
  intro es
  induction es with
  | nil =>
    intro A s R hA hR
    simp only [slashLoop, Option.some.injEq] at hR
    exact hR ▸ hA
  | cons e rest ih =>
    intro A s R hA hR
    rw [slashLoop, Option.bind_eq_some] at hR
    obtain ⟨A2, hW, hrec⟩ := hR
    exact ih A2 _ R (blockWrite_symm hHs hA hW) hrec

lemma slashLoop_zero_diag {hN : Nat} {Hf : Nat → Nat → Nat} {nv : Nat}
    (hHd : ∀ p, p < hN → Hf p p = 0) :
    ∀ (es : List (Nat × Nat)) (A : Nat → Nat → Nat) (s : Nat) (R : Nat → Nat → Nat),
      (∀ i, A i i = 0) → slashLoop hN Hf nv es A s = some R →
      ∀ i, R i i = 0 := by
  intro es
  induction es with
  | nil =>
    intro A s R hA hR
    simp only [slashLoop, Option.some.injEq] at hR
    exact hR ▸ hA
  | cons e rest ih =>
    intro A s R hA hR
    rw [slashLoop, Option.bind_eq_some] at hR
    obtain ⟨A2, hW, hrec⟩ := hR
    exact ih A2 _ R (blockWrite_zero_diag hHd hA hW) hrec

/-- C3: whenever the adjacency matrices of `G` and `H` are symmetric
with zero diagonal, any graph returned by `slash_H_into_G(G, H)` again has
a symmetric adjacency matrix with zero diagonal. -/
theorem slash_into_symm_zero_diag (G H : Graph)
    (hGs : G.Symm) (hGd : G.ZeroDiag) (hHs : H.Symm) (hHd : H.ZeroDiag) :
    (slash_H_into_G G H).elim True fun S => S.Symm ∧ S.ZeroDiag := by
  rw [slash_H_into_G]
  split
  · trivial
  · rcases hL : slashLoop H.number_of_nodes H.adj (comp_slash_verts (G.number_of_nodes : Int)
        ((G.edges).length : Int) (H.number_of_nodes : Int) ((H.edges).length : Int)).toNat
        G.edges (fun _ _ => 0) G.number_of_nodes with _ | R
    · simp [hL]
    · simp only [hL, Option.map_some, Option.elim]
      constructor
      · intro i _ j _
        exact slashLoop_symm (fun p q hp hq => hHs p hp q hq) G.edges
          (fun _ _ => 0) G.number_of_nodes R (fun _ _ => rfl) hL i j
      · intro i _
        exact slashLoop_zero_diag (fun p hp => hHd p hp) G.edges
          (fun _ _ => 0) G.number_of_nodes R (fun _ => rfl) hL i

theorem slash_into_symm_zero_diag_witness :
    (slash_H_into_G D1 D1).elim True fun S => S.Symm ∧ S.ZeroDiag :=
  slash_into_symm_zero_diag D1 D1 (by decide) (by decide) (by decide) (by decide)

lemma slashLoop_eq_slashFold {hN : Nat} {Hf : Nat → Nat → Nat} {g nv : Nat}
    (hhv : 2 ≤ hN) (hgnv : g ≤ nv) :
    ∀ (es : List (Nat × Nat)) (A : Nat → Nat → Nat) (s : Nat),
      (∀ e ∈ es, e.1 < e.2 ∧ e.2 < g) → g ≤ s → s + es.length * (hN - 2) ≤ nv →
      slashLoop hN Hf nv es A s = some (slashFold hN Hf es A s) := by
  intro es
  induction es with
  | nil => intro A s _ _ _; rfl
  | cons e rest ih =>
    intro A s hes hgs hlen
    obtain ⟨huv, hv2⟩ := hes e (List.mem_cons_self e rest)
    have hnorm : (if e.2 < e.1 then (e.2, e.1) else e) = e := if_neg (by omega)
    rw [slashLoop, hnorm, slashFold]
    have hball : ∀ x ∈ block_indices e.1 e.2 s (hN - 2), x < nv := by
      refine block_indices_all_lt (by omega) (by omega) ?_
      have h1 : rest.length * (hN - 2) + (hN - 2) = (rest.length + 1) * (hN - 2) := by ring
      simp only [List.length_cons] at hlen
      omega
    have hbw : blockWrite hN Hf nv (block_indices e.1 e.2 s (hN - 2)) A =
        some (writeBlock A (block_indices e.1 e.2 s (hN - 2)) Hf) := by
      rw [blockWrite, if_pos, if_pos]
      · rw [block_indices_length]
        omega
      · rw [List.all_eq_true]
        intro x hx
        exact decide_eq_true (hball x hx)
    rw [hbw, Option.some_bind]
    refine ih _ _ (fun e2 he2 => hes e2 (List.mem_cons_of_mem e he2)) (by omega) ?_
    simp only [List.length_cons] at hlen
    have h1 : rest.length * (hN - 2) + (hN - 2) = (rest.length + 1) * (hN - 2) := by ring
    omega

lemma slash_H_into_G_eq (G H : Graph) (hhv : 2 ≤ H.number_of_nodes) :
    slash_H_into_G G H =
      some { number_of_nodes :=
               G.number_of_nodes + G.edges.length * (H.number_of_nodes - 2),
             adj := slashFold H.number_of_nodes H.adj G.edges (fun _ _ => 0)
               G.number_of_nodes } := by
  have hcast : comp_slash_verts (G.number_of_nodes : Int) ((G.edges).length : Int)
      (H.number_of_nodes : Int) ((H.edges).length : Int) =
      ((G.number_of_nodes + G.edges.length * (H.number_of_nodes - 2) : Nat) : Int) := by
    rw [comp_slash_verts]
    push_cast [Nat.cast_sub hhv]
    ring
  rw [slash_H_into_G]
  simp only [hcast, Int.toNat_natCast]
  rw [if_neg (by omega)]
  rw [slashLoop_eq_slashFold hhv (Nat.le_add_right _ _) G.edges (fun _ _ => 0)
    G.number_of_nodes (fun e he => G.edges_mem_lt he) (le_refl _) (le_refl _)]
  rfl

/-- C1: for all valid input graphs `G` and `H` (symmetric 0/1 adjacency
matrices with zero diagonal, `|V_H| ≥ 2`), `slash_H_into_G(G, H)` succeeds
and the number of vertices of the returned graph equals
`comp_slash_verts(|V_G|, |E_G|, |V_H|, |E_H|) = |V_G| + |E_G|*(|V_H| - 2)`. -/
theorem slash_into_vertex_count (G H : Graph) (hG : G.Valid) (hH : H.Valid)
    (hhv : 2 ≤ H.number_of_nodes) :
    (slash_H_into_G G H).elim False fun S =>
      (S.number_of_nodes : Int) =
        comp_slash_verts (G.number_of_nodes : Int) ((G.edges).length : Int)
          (H.number_of_nodes : Int) ((H.edges).length : Int) := by
  rw [slash_H_into_G_eq G H hhv]
  simp only [Option.elim]
  rw [comp_slash_verts]
  push_cast [Nat.cast_sub hhv]
  ring

theorem slash_into_vertex_count_witness :
    D1.Valid ∧ 2 ≤ D1.number_of_nodes ∧
    ((slash_H_into_G D1 D1).elim False fun S =>
      (S.number_of_nodes : Int) =
        comp_slash_verts (D1.number_of_nodes : Int) ((D1.edges).length : Int)
          (D1.number_of_nodes : Int) ((D1.edges).length : Int)) :=
  ⟨by decide, by decide, slash_into_vertex_count D1 D1 (by decide) (by decide) (by decide)⟩

lemma mem_edgeFinset {n : Nat} {A : Nat → Nat → Nat} {x y : Nat} :
    (x, y) ∈ edgeFinset n A ↔ x < y ∧ y < n ∧ A x y ≠ 0 := by
  simp only [edgeFinset, Finset.mem_filter, Finset.mem_product, Finset.mem_range]
  constructor
  · rintro ⟨⟨h1, h2⟩, h3, h4⟩
    exact ⟨h3, h2, h4⟩
  · rintro ⟨h1, h2, h3⟩
    exact ⟨⟨by omega, h2⟩, h1, h3⟩

lemma edges_length_eq_card (G : Graph) :
    G.edges.length = (edgeFinset G.number_of_nodes G.adj).card := by
  have h1 : G.edges.toFinset = edgeFinset G.number_of_nodes G.adj := by
    ext e
    obtain ⟨x, y⟩ := e
    rw [List.mem_toFinset, Graph.mem_edges, mem_edgeFinset]
  rw [← h1, List.toFinset_card_of_nodup (Graph.edges_nodup G)]

lemma getD_mem_of_lt {b : List Nat} {p : Nat} (hp : p < b.length) :
    b.getD p 0 ∈ b := by
  rw [List.getD_eq_getElem b 0 hp]
  exact List.getElem_mem hp

lemma indexOf_getD {b : List Nat} (hnd : b.Nodup) {p : Nat} (hp : p < b.length) :
    List.indexOf (b.getD p 0) b = p := by
  rw [List.getD_eq_getElem b 0 hp]
  have hmem : b[p] ∈ b := List.getElem_mem hp
  have hlt := indexOf_block_lt hmem
  exact (List.Nodup.getElem_inj_iff hnd).1 (List.getElem_indexOf hlt)

lemma getD_indexOf {b : List Nat} {x : Nat} (hx : x ∈ b) :
    b.getD (List.indexOf x b) 0 = x := by
  rw [List.getD_eq_getElem b 0 (indexOf_block_lt hx)]
  exact List.getElem_indexOf (indexOf_block_lt hx)

lemma getD_ne_getD {b : List Nat} (hnd : b.Nodup) {p q : Nat}
    (hp : p < b.length) (hq : q < b.length) (h : p ≠ q) :
    b.getD p 0 ≠ b.getD q 0 := by
  rw [List.getD_eq_getElem b 0 hp, List.getD_eq_getElem b 0 hq]
  intro hc
  exact h ((List.Nodup.getElem_inj_iff hnd).1 hc)

lemma indexOf_ne_indexOf {b : List Nat} {x y : Nat} (hx : x ∈ b) (hy : y ∈ b)
    (h : x ≠ y) : List.indexOf x b ≠ List.indexOf y b :=
  fun hc => h ((List.indexOf_inj hx hy).1 hc)

lemma sortPair_le {x y : Nat} (h : x ≤ y) : sortPair (x, y) = (x, y) :=
  if_pos h

lemma sortPair_gt {x y : Nat} (h : ¬ x ≤ y) : sortPair (x, y) = (y, x) :=
  if_neg h

lemma card_block_new {n : Nat} {b : List Nat} {Hf : Nat → Nat → Nat}
    (hnd : b.Nodup) (hlt : ∀ x ∈ b, x < n)
    (hsym : ∀ p q, p < b.length → q < b.length → Hf p q = Hf q p) :
    ((Finset.range n ×ˢ Finset.range n).filter fun e =>
        e.1 < e.2 ∧ e.1 ∈ b ∧ e.2 ∈ b ∧
          Hf (List.indexOf e.1 b) (List.indexOf e.2 b) ≠ 0).card =
      (edgeFinset b.length Hf).card := by
  refine Finset.card_bij'
    (fun e _ => sortPair (List.indexOf e.1 b, List.indexOf e.2 b))
    (fun e _ => sortPair (b.getD e.1 0, b.getD e.2 0)) ?_ ?_ ?_ ?_
  · rintro ⟨x, y⟩ ha
    beta_reduce
    simp only [Finset.mem_filter, Finset.mem_product, Finset.mem_range] at ha
    obtain ⟨⟨hxn, hyn⟩, hxy, hxb, hyb, hHf⟩ := ha
    have hpx := indexOf_block_lt hxb
    have hpy := indexOf_block_lt hyb
    have hne := indexOf_ne_indexOf hxb hyb (by omega)
    by_cases hle : List.indexOf x b ≤ List.indexOf y b
    · rw [sortPair_le hle, mem_edgeFinset]
      exact ⟨by omega, hpy, hHf⟩
    · rw [sortPair_gt hle, mem_edgeFinset]
      refine ⟨by omega, hpx, ?_⟩
      rw [hsym _ _ hpy hpx]
      exact hHf
  · rintro ⟨p, q⟩ ha
    beta_reduce
    rw [mem_edgeFinset] at ha
    obtain ⟨hpq, hq, hHf⟩ := ha
    have hp : p < b.length := by omega
    have hxb := getD_mem_of_lt hp
    have hyb := getD_mem_of_lt hq
    have hne := getD_ne_getD hnd hp hq (by omega)
    by_cases hle : b.getD p 0 ≤ b.getD q 0
    · rw [sortPair_le hle]
      simp only [Finset.mem_filter, Finset.mem_product, Finset.mem_range]
      refine ⟨⟨hlt _ hxb, hlt _ hyb⟩, by omega, hxb, hyb, ?_⟩
      rw [indexOf_getD hnd hp, indexOf_getD hnd hq]
      exact hHf
    · rw [sortPair_gt hle]
      simp only [Finset.mem_filter, Finset.mem_product, Finset.mem_range]
      refine ⟨⟨hlt _ hyb, hlt _ hxb⟩, by omega, hyb, hxb, ?_⟩
      rw [indexOf_getD hnd hq, indexOf_getD hnd hp, hsym _ _ hq hp]
      exact hHf
  · rintro ⟨x, y⟩ ha
    beta_reduce
    simp only [Finset.mem_filter, Finset.mem_product, Finset.mem_range] at ha
    obtain ⟨⟨hxn, hyn⟩, hxy, hxb, hyb, hHf⟩ := ha
    by_cases hle : List.indexOf x b ≤ List.indexOf y b
    · rw [sortPair_le hle, sortPair, getD_indexOf hxb, getD_indexOf hyb,
        if_pos (by omega : x ≤ y)]
    · rw [sortPair_gt hle, sortPair, getD_indexOf hyb, getD_indexOf hxb]
      exact if_neg (by omega)
  · rintro ⟨p, q⟩ ha
    beta_reduce
    rw [mem_edgeFinset] at ha
    obtain ⟨hpq, hq, hHf⟩ := ha
    have hp : p < b.length := by omega
    by_cases hle : b.getD p 0 ≤ b.getD q 0
    · rw [sortPair_le hle, sortPair, indexOf_getD hnd hp, indexOf_getD hnd hq,
        if_pos (by omega : p ≤ q)]
    · rw [sortPair_gt hle, sortPair, indexOf_getD hnd hq, indexOf_getD hnd hp]
      exact if_neg (by omega)

lemma edgeFinset_writeBlock {n : Nat} {A : Nat → Nat → Nat} {b : List Nat}
    {Hf : Nat → Nat → Nat}
    (hzero : ∀ x y, x ∈ b → y ∈ b → x < y → A x y = 0) :
    edgeFinset n (writeBlock A b Hf) =
      edgeFinset n A ∪ ((Finset.range n ×ˢ Finset.range n).filter fun e =>
        e.1 < e.2 ∧ e.1 ∈ b ∧ e.2 ∈ b ∧
          Hf (List.indexOf e.1 b) (List.indexOf e.2 b) ≠ 0) := by
  ext e
  obtain ⟨x, y⟩ := e
  rw [Finset.mem_union, mem_edgeFinset, mem_edgeFinset]
  simp only [Finset.mem_filter, Finset.mem_product, Finset.mem_range, writeBlock]
  by_cases hb : x ∈ b ∧ y ∈ b
  · rw [if_pos hb]
    constructor
    · rintro ⟨h1, h2, h3⟩
      exact Or.inr ⟨⟨by omega, by omega⟩, h1, hb.1, hb.2, h3⟩
    · rintro (⟨h1, h2, h3⟩ | ⟨⟨h1, h2⟩, h3, h4, h5, h6⟩)
      · exact absurd (hzero x y hb.1 hb.2 h1) h3
      · exact ⟨h3, h2, h6⟩
  · rw [if_neg hb]
    constructor
    · rintro ⟨h1, h2, h3⟩
      exact Or.inl ⟨h1, h2, h3⟩
    · rintro (⟨h1, h2, h3⟩ | ⟨⟨h1, h2⟩, h3, h4, h5, h6⟩)
      · exact ⟨h1, h2, h3⟩
      · exact absurd ⟨h4, h5⟩ hb

lemma disjoint_edgeFinset_block {n : Nat} {A : Nat → Nat → Nat} {b : List Nat}
    {Hf : Nat → Nat → Nat}
    (hzero : ∀ x y, x ∈ b → y ∈ b → x < y → A x y = 0) :
    Disjoint (edgeFinset n A)
      ((Finset.range n ×ˢ Finset.range n).filter fun e =>
        e.1 < e.2 ∧ e.1 ∈ b ∧ e.2 ∈ b ∧
          Hf (List.indexOf e.1 b) (List.indexOf e.2 b) ≠ 0) := by
  rw [Finset.disjoint_left]
  rintro ⟨x, y⟩ hA hB
  rw [mem_edgeFinset] at hA
  simp only [Finset.mem_filter, Finset.mem_product, Finset.mem_range] at hB
  exact hA.2.2 (hzero x y hB.2.2.1 hB.2.2.2.1 hA.1)

lemma edgeFinset_writeBlock_card {n : Nat} {A : Nat → Nat → Nat} {b : List Nat}
    {Hf : Nat → Nat → Nat}
    (hnd : b.Nodup) (hlt : ∀ x ∈ b, x < n)
    (hsym : ∀ p q, p < b.length → q < b.length → Hf p q = Hf q p)
    (hzero : ∀ x y, x ∈ b → y ∈ b → x < y → A x y = 0) :
    (edgeFinset n (writeBlock A b Hf)).card =
      (edgeFinset n A).card + (edgeFinset b.length Hf).card := by
  rw [edgeFinset_writeBlock hzero,
    Finset.card_union_of_disjoint (disjoint_edgeFinset_block hzero),
    card_block_new hnd hlt hsym]

lemma slashFold_card {hN : Nat} {Hf : Nat → Nat → Nat} {g nv : Nat}
    (hhv : 2 ≤ hN) (hgnv : g ≤ nv)
    (hsym : ∀ p q, p < hN → q < hN → Hf p q = Hf q p) :
    ∀ (es : List (Nat × Nat)) (A : Nat → Nat → Nat) (s : Nat),
      (∀ e ∈ es, e.1 < e.2 ∧ e.2 < g) → es.Nodup → g ≤ s →
      s + es.length * (hN - 2) ≤ nv →
      (∀ e ∈ es, A e.1 e.2 = 0) →
      (∀ x y, s ≤ x ∨ s ≤ y → A x y = 0) →
      (edgeFinset nv (slashFold hN Hf es A s)).card =
        (edgeFinset nv A).card + es.length * (edgeFinset hN Hf).card := by
  intro es
  induction es with
  | nil =>
    intro A s _ _ _ _ _ _
    simp [slashFold]
  | cons e rest ih =>
    intro A s hes hnd hgs hlen hedges hhigh
    obtain ⟨huv, hv2⟩ := hes e (List.mem_cons_self e rest)
    have hmul : rest.length * (hN - 2) + (hN - 2) = (rest.length + 1) * (hN - 2) := by
      ring
    simp only [List.length_cons] at hlen
    rw [slashFold]
    set b := block_indices e.1 e.2 s (hN - 2) with hb
    have hblen : b.length = hN := by
      rw [hb, block_indices_length]
      omega
    have hbnd : b.Nodup := block_indices_nodup (by omega) (by omega) (by omega)
    have hball : ∀ x ∈ b, x < nv := by
      refine block_indices_all_lt (by omega) (by omega) ?_
      omega
    have hzero : ∀ x y, x ∈ b → y ∈ b → x < y → A x y = 0 := by
      intro x y hx hy hxy
      rcases mem_block_indices.1 hx with rfl | rfl | hxs
      · rcases mem_block_indices.1 hy with rfl | rfl | hys
        · omega
        · exact hedges e (List.mem_cons_self e rest)
        · exact hhigh _ _ (Or.inr hys.1)
      · rcases mem_block_indices.1 hy with rfl | rfl | hys
        · omega
        · omega
        · exact hhigh _ _ (Or.inr hys.1)
      · exact hhigh _ _ (Or.inl hxs.1)
    have hsym2 : ∀ p q, p < b.length → q < b.length → Hf p q = Hf q p := fun p q hp hq =>
      hsym p q (hblen ▸ hp) (hblen ▸ hq)
    have hedges2 : ∀ e2 ∈ rest, writeBlock A b Hf e2.1 e2.2 = 0 := by
      intro e2 he2
      have he2b := hes e2 (List.mem_cons_of_mem e he2)
      simp only [writeBlock]
      by_cases hb2 : e2.1 ∈ b ∧ e2.2 ∈ b
      · exfalso
        rcases mem_block_indices.1 hb2.1 with h1 | h1 | h1 <;>
          rcases mem_block_indices.1 hb2.2 with h2 | h2 | h2
        · omega
        · have he2e : e2 = e := Prod.ext h1 h2
          exact (List.nodup_cons.1 hnd).1 (he2e ▸ he2)
        · omega
        · omega
        · omega
        · omega
        · omega
        · omega
        · omega
      · rw [if_neg hb2]
        exact hedges e2 (List.mem_cons_of_mem e he2)
    have hhigh2 : ∀ x y, s + (hN - 2) ≤ x ∨ s + (hN - 2) ≤ y →
        writeBlock A b Hf x y = 0 := by
      intro x y hxy
      simp only [writeBlock]
      by_cases hb2 : x ∈ b ∧ y ∈ b
      · exfalso
        have h1 := mem_block_indices.1 hb2.1
        have h2 := mem_block_indices.1 hb2.2
        rcases h1 with h1 | h1 | h1 <;> rcases h2 with h2 | h2 | h2 <;> omega
      · rw [if_neg hb2]
        refine hhigh x y ?_
        omega
    rw [ih (writeBlock A b Hf) (s + (hN - 2))
      (fun e2 he2 => hes e2 (List.mem_cons_of_mem e he2))
      (List.Nodup.of_cons hnd) (by omega) (by omega) hedges2 hhigh2]
    rw [edgeFinset_writeBlock_card hbnd hball hsym2 hzero, hblen]
    simp only [List.length_cons]
    ring

lemma slash_H_into_G_counts (G H : Graph) (hHs : H.Symm) (hhv : 2 ≤ H.number_of_nodes) :
    ∃ S, slash_H_into_G G H = some S ∧
      S.number_of_nodes = G.number_of_nodes + G.edges.length * (H.number_of_nodes - 2) ∧
      S.edges.length = G.edges.length * H.edges.length := by
  refine ⟨_, slash_H_into_G_eq G H hhv, rfl, ?_⟩
  rw [edges_length_eq_card]
  show (edgeFinset (G.number_of_nodes + G.edges.length * (H.number_of_nodes - 2))
      (slashFold H.number_of_nodes H.adj G.edges (fun _ _ => 0) G.number_of_nodes)).card
    = G.edges.length * H.edges.length
  rw [slashFold_card hhv (Nat.le_add_right _ _) (fun p q hp hq => hHs p hp q hq)
      G.edges (fun _ _ => 0) G.number_of_nodes
      (fun e he => G.edges_mem_lt he) (G.edges_nodup) (le_refl _) (le_refl _)
      (fun e _ => rfl) (fun x y _ => rfl)]
  have h0 : edgeFinset (G.number_of_nodes + G.edges.length * (H.number_of_nodes - 2))
      (fun _ _ => (0 : Nat)) = ∅ := by
    rw [Finset.eq_empty_iff_forall_not_mem]
    rintro ⟨x, y⟩ hm
    rw [mem_edgeFinset] at hm
    exact hm.2.2 rfl
  rw [h0, Finset.card_empty, ← edges_length_eq_card H]
  omega

lemma freshIds_disjoint {base f : Nat} {k l : Nat} (h : k ≠ l) :
    ∀ x, x ∈ freshIds base f k → x ∉ freshIds base f l := by
  intro x hk hl
  simp only [freshIds, List.mem_map, List.mem_range] at hk hl
  obtain ⟨i, hi, hik⟩ := hk
  obtain ⟨j, hj, hjl⟩ := hl
  have h1 : base + k * f + i = x := hik
  have h2 : base + l * f + j = x := hjl
  rcases Nat.lt_or_ge k l with hkl | hkl
  · have h3 : (k + 1) * f ≤ l * f := Nat.mul_le_mul_right f (by omega)
    rw [Nat.succ_mul] at h3
    omega
  · have h3 : (l + 1) * f ≤ k * f := Nat.mul_le_mul_right f (by omega)
    rw [Nat.succ_mul] at h3
    omega

/-- C10: for all valid graphs `G`, `H` (symmetric 0/1, zero diagonal,
`|V_H| ≥ 2`), `slash_H_into_G(G, H)` succeeds and the returned graph has
exactly `|E_G| * |E_H|` edges; moreover the fresh inserted-vertex blocks
allocated for distinct edges of `G` (the `k`-th edge receives
`freshIds |V_G| (|V_H|-2) k`) are pairwise disjoint, so no two spliced
copies of `H` ever write the same off-diagonal entry. -/
theorem slash_into_edge_count (G H : Graph) (hG : G.Valid) (hH : H.Valid)
    (hhv : 2 ≤ H.number_of_nodes) :
    ((slash_H_into_G G H).elim False fun S =>
        S.edges.length = G.edges.length * H.edges.length) ∧
    ∀ k l, k ≠ l → ∀ x, x ∈ freshIds G.number_of_nodes (H.number_of_nodes - 2) k →
      x ∉ freshIds G.number_of_nodes (H.number_of_nodes - 2) l := by
  constructor
  · obtain ⟨S, hS, _, hE⟩ := slash_H_into_G_counts G H hH.1 hhv
    rw [hS]
    exact hE
  · intro k l hkl
    exact freshIds_disjoint hkl

theorem slash_into_edge_count_witness :
    (D1.Valid ∧ 2 ≤ D1.number_of_nodes) ∧
    (((slash_H_into_G D1 D1).elim False fun S =>
        S.edges.length = D1.edges.length * D1.edges.length) ∧
      ∀ k l, k ≠ l → ∀ x, x ∈ freshIds D1.number_of_nodes (D1.number_of_nodes - 2) k →
        x ∉ freshIds D1.number_of_nodes (D1.number_of_nodes - 2) l) :=
  ⟨⟨by decide, by decide⟩, slash_into_edge_count D1 D1 (by decide) (by decide) (by decide)⟩

lemma slash_H_into_G_no_edges (G H : Graph) (h : G.edges = []) :
    slash_H_into_G G H = some { number_of_nodes := G.number_of_nodes,
                                adj := fun _ _ => 0 } := by
  rw [slash_H_into_G]
  simp [h, comp_slash_verts, slashLoop]

lemma slashIter_counts (G : Graph) (hS : G.Symm) (hhv : 2 ≤ G.number_of_nodes) :
    ∀ k, ∃ S, slashIter G k = some S ∧
      S.number_of_nodes = G.number_of_nodes +
        (G.number_of_nodes - 2) * (∑ i ∈ Finset.range k, G.edges.length ^ (i + 1)) ∧
      S.edges.length = G.edges.length ^ (k + 1) := by
  intro k
  induction k with
  | zero => exact ⟨G, rfl, by simp, by simp⟩
  | succ k ihk =>
    obtain ⟨S, hSk, hV, hE⟩ := ihk
    obtain ⟨S2, hS2, hV2, hE2⟩ := slash_H_into_G_counts S G hS hhv
    refine ⟨S2, ?_, ?_, ?_⟩
    · rw [slashIter, hSk, Option.some_bind]
      exact hS2
    · rw [hV2, hV, hE, Finset.sum_range_succ]
      ring
    · rw [hE2, hE]
      ring

lemma slashIter_small (G : Graph) (h : G.number_of_nodes < 2) :
    ∀ k, ∃ S, slashIter G k = some S ∧ S.number_of_nodes = G.number_of_nodes := by
  intro k
  induction k with
  | zero => exact ⟨G, rfl, rfl⟩
  | succ k ihk =>
    obtain ⟨S, hSk, hV⟩ := ihk
    have hSe : S.edges = [] := Graph.edges_nil_of_lt_two (by omega)
    refine ⟨{ number_of_nodes := S.number_of_nodes, adj := fun _ _ => 0 }, ?_, hV⟩
    rw [slashIter, hSk, Option.some_bind, slash_H_into_G_no_edges S G hSe]

lemma geomSeries_zero {m : Nat} (h : 1 ≤ m) : geomSeries 0 m = 1 := by
  obtain ⟨k, rfl⟩ : ∃ k, m = k + 1 := ⟨m - 1, by omega⟩
  rw [geomSeries, Finset.sum_range_succ', Finset.sum_eq_zero]
  · simp
  · intro i _
    exact zero_pow (by omega)

/-- C2: for every valid graph `G` with `|E_G| ≠ 1` and every integer
`n ≥ 1`, `slash_power(G, n)` succeeds and its number of vertices is the
value returned by `comp_slash_power_verts(|V_G|, |E_G|, n)`, i.e.
`2 + (|V_G| - 2)*(|E_G|^n - 1)/(|E_G| - 1)`. -/
theorem slash_power_vertex_count (G : Graph) (n : Int) (hG : G.Valid)
    (hE : G.edges.length ≠ 1) (hn : 1 ≤ n) :
    (slash_power G n).elim False fun S =>
      comp_slash_power_verts (G.number_of_nodes : Int) ((G.edges).length : Int) n.toNat =
        some (S.number_of_nodes : Int) := by
  have hEi : ((G.edges).length : Int) ≠ 1 := by exact_mod_cast hE
  rw [slash_power]
  by_cases hhv : 2 ≤ G.number_of_nodes
  · obtain ⟨S, hS, hV, hE2⟩ := slashIter_counts G hG.1 hhv ((n - 1).toNat)
    rw [hS]
    simp only [Option.elim]
    rw [comp_slash_power_verts_closed _ _ _ hEi]
    congr 1
    have hnk : n.toNat = (n - 1).toNat + 1 := by omega
    rw [hnk, hV, geomSeries, Finset.sum_range_succ']
    push_cast [Nat.cast_sub hhv]
    ring
  · push_neg at hhv
    have hE0 : G.edges = [] := Graph.edges_nil_of_lt_two hhv
    obtain ⟨S, hS, hV⟩ := slashIter_small G hhv ((n - 1).toNat)
    rw [hS]
    simp only [Option.elim]
    rw [comp_slash_power_verts_closed _ _ _ hEi]
    congr 1
    rw [hV, hE0]
    simp only [List.length_nil, Nat.cast_zero]
    rw [geomSeries_zero (by omega)]
    ring

theorem slash_power_vertex_count_witness :
    (D1.Valid ∧ D1.edges.length ≠ 1 ∧ (1 : Int) ≤ 2) ∧
    ((slash_power D1 2).elim False fun S =>
      comp_slash_power_verts (D1.number_of_nodes : Int) ((D1.edges).length : Int)
          (2 : Int).toNat = some (S.number_of_nodes : Int)) :=
  ⟨⟨by decide, by decide, by decide⟩,
    slash_power_vertex_count D1 2 (by decide) (by decide) (by decide)⟩
